import Mathlib

/-!
Verification model of the catalyst-libs signed-document specification engine
(`specs/generators/packages/spec/src/spec/*` and `specs/gen_docs/spec/*`).

Python dicts are modelled as insertion-ordered association lists; in-place
mutation of model objects is modelled by explicit state passing; operations
that can raise (`KeyError`, `TypeError`) return `Option`.
-/

namespace Catalyst

/-- Lookup of a key in a Python dict modelled as an association list
(first binding wins, like a dict which never holds duplicate keys). -/
def findA {α : Type} (l : List (String × α)) (k : String) : Option α :=
  (l.find? (fun p => p.1 == k)).map (fun p => p.2)

/-- Assignment to an existing key of a Python dict: the first binding of the
key is replaced in place, every other binding is kept. -/
def updateA {α : Type} (l : List (String × α)) (k : String) (v : α) : List (String × α) :=
  match l with
  | [] => []
  | p :: rest => if p.1 = k then (p.1, v) :: rest else p :: updateA rest k v

/-- Python dict assignment `d[k] = v` when `k` may be new: an existing key keeps
its position, a new key is appended at the end. -/
def dictInsert {α : Type} (l : List (String × α)) (k : String) (v : α) : List (String × α) :=
  if (findA l k).isSome then updateA l k v else l ++ [(k, v)]

/-- Keys of a Python dict, in insertion order. -/
def keysA {α : Type} (l : List (String × α)) : List String :=
  l.map Prod.fst

/-- Raw value of a spec field declared `str | list[str] | None` in the source. -/
inductive StrOrList where
  | null : StrOrList
  | one : String → StrOrList
  | many : List String → StrOrList
deriving DecidableEq

/-- Model of `MetadataHeader.fix_list`: `None` becomes `[]`, a bare string
becomes a one-element list, a list is returned unchanged. -/
def fixList : StrOrList → List String
  | StrOrList.null => []
  | StrOrList.one s => [s]
  | StrOrList.many l => l

/-- Model of `fix_list` applied to a field typed `list[str] | None`. -/
def fixListO : Option (List String) → List String
  | none => []
  | some l => l

/-- Python whitespace test used by `str.strip` and `str.splitlines`
(restricted to the ASCII whitespace occurring in this specification). -/
def charWs (c : Char) : Bool :=
  c = ' ' || c = '\t' || c = '\n' || c = '\r' || c = '\x0b' || c = '\x0c'

/-- Model of Python `str.strip()`: drop leading and trailing whitespace. -/
def pyStrip (s : String) : String :=
  String.mk (((s.data.dropWhile charWs).reverse.dropWhile charWs).reverse)

/-- Split a character list at every newline (the lines keep no terminator). -/
def splitNLAux : List Char → List Char → List String
  | [], acc => [String.mk acc.reverse]
  | c :: rest, acc =>
    if c = '\n' then String.mk acc.reverse :: splitNLAux rest []
    else splitNLAux rest (c :: acc)

/-- Split a string at every newline, like `str.split` with a newline
separator: n newlines produce n+1 parts. -/
def splitNL (s : String) : List String :=
  splitNLAux s.data []

/-- Does the string end with a newline character. -/
def endsWithNL (s : String) : Bool :=
  match s.data.getLast? with
  | some c => c = '\n'
  | none => false

/-- Does the second character list start with the first. -/
def leadsWith : List Char → List Char → Bool
  | [], _ => true
  | _ :: _, [] => false
  | a :: as, b :: bs => a = b && leadsWith as bs

/-- Number of positions of `s` at which the pattern occurs (used to state
that a piece of text appears exactly once). -/
def countSubAux (pat : List Char) : List Char → Nat
  | [] => 0
  | c :: rest => (if leadsWith pat (c :: rest) then 1 else 0) + countSubAux pat rest

/-- Occurrence count of a nonempty pattern in a string. -/
def countSub (s pat : String) : Nat :=
  countSubAux pat.data s.data

/-- Python string comparison: lexicographic by code point. -/
def pyStrLeL : List Char → List Char → Bool
  | [], _ => true
  | _ :: _, [] => false
  | a :: as, b :: bs =>
    if a.toNat < b.toNat then true
    else if a.toNat = b.toNat then pyStrLeL as bs
    else false

/-- Model of the `OptionalField` enum (`spec/optional.py`). -/
inductive OptionalField where
  | required : OptionalField
  | optionalF : OptionalField
  | excluded : OptionalField
deriving DecidableEq

/-- String value of an `OptionalField` enum member. -/
def OptionalField.value : OptionalField → String
  | OptionalField.required => "yes"
  | OptionalField.optionalF => "optional"
  | OptionalField.excluded => "excluded"

/-!
Document registry.  Both copies of the code base (`spec/document.py` in the
generators package and `gen_docs/spec/document.py`) run the same
post-initialization pass over the documents dict; the pass is modelled once,
generically in the type `μ` of a document's metadata sub-registry and in the
name-stamping function applied by `Document.set_name`.
-/

/-- Document state relevant to the reference-graph pass: the metadata
sub-registry `meta`, the derived private attributes `_all_refs` and
`_refed_by`, and the `doc_name` field. -/
structure PDoc (μ : Type) where
  meta : μ
  allRefs : List String
  refedBy : List String
  docName : Option String
deriving DecidableEq

/-- Model of `Document.add_referer`: append the referring document's name to
`_refed_by` unless it is already present. -/
def addReferer {μ : Type} (d : PDoc μ) (n : String) : PDoc μ :=
  if n ∈ d.refedBy then d else { d with refedBy := d.refedBy ++ [n] }

/-- Model of `Document.set_name`: record `doc_name` and stamp the metadata
sub-registry with the owning document's name. -/
def setDocName {μ : Type} (stamp : String → μ → μ) (n : String) (d : PDoc μ) : PDoc μ :=
  { d with docName := some n, meta := stamp n d.meta }

/-- Inner loop of `Documents.model_post_init`: for each reference target of
document `src`, run `self.root[ref_doc].add_referer(src)`; a missing target
raises `KeyError`, modelled as `none`. -/
def registerRefs {μ : Type} (docs : List (String × PDoc μ)) (src : String) :
    List String → Option (List (String × PDoc μ))
  | [] => some docs
  | r :: rest =>
    match findA docs r with
    | none => none
    | some d => registerRefs (updateA docs r (addReferer d src)) src rest

/-- Outer loop of `Documents.model_post_init` over the listed document names:
`doc.set_name(name)` followed by registration of all its references. -/
def docsPassAux {μ : Type} (stamp : String → μ → μ) :
    List (String × PDoc μ) → List String → Option (List (String × PDoc μ))
  | docs, [] => some docs
  | docs, n :: rest =>
    match findA docs n with
    | none => none
    | some d =>
      let docs1 := updateA docs n (setDocName stamp n d)
      match registerRefs docs1 n d.allRefs with
      | none => none
      | some docs2 => docsPassAux stamp docs2 rest

/-- Model of `Documents.model_post_init`: iterate over all documents of the
registry in insertion order. -/
def docsPass {μ : Type} (stamp : String → μ → μ) (docs : List (String × PDoc μ)) :
    Option (List (String × PDoc μ)) :=
  docsPassAux stamp docs (keysA docs)

/-- Collection step of `Document.model_post_init`: gather the `type` targets of
every metadata field whose `format` is `"Document Reference"`. -/
def collectRefs {η : Type} (fmt : η → String) (typ : η → List String)
    (entries : List (String × η)) : List String :=
  entries.foldl (fun acc p => if fmt p.2 = "Document Reference" then acc ++ typ p.2 else acc) []

/-- Model of `Document.model_post_init`'s `_all_refs` computation,
`list(set(all_refs))`: the collected targets, de-duplicated.  Python's
`list(set(..))` returns the members in unspecified order; the model fixes one
order, and all theorems about it are membership statements. -/
def documentAllRefs {η : Type} [DecidableEq η] (fmt : η → String) (typ : η → List String)
    (entries : List (String × η)) : List String :=
  (collectRefs fmt typ entries).dedup

/-!
Generators package flavor (`specs/generators/packages/spec/src/spec/`).
-/

/-- Model of `MetadataHeader` (generators package `spec/metadata.py`), with the
`GenericHeader` fields it inherits and the private name attributes. -/
structure MetadataHeaderG where
  coseLabel : Option (String ⊕ Int)
  description : String
  required : OptionalField
  format : String
  validation : Option String
  rawType : StrOrList
  multiple : Bool
  rawLinkedRefs : Option (List String)
  name : String
  docName : Option String
deriving DecidableEq

/-- Computed `type` property of a generators-package metadata header. -/
def MetadataHeaderG.typeList (m : MetadataHeaderG) : List String :=
  fixList m.rawType

/-- Model of `MetadataHeaders.set_name`: stamp each header with its dict key
and the owning document's name. -/
def stampMetaG (docName : String) (md : List (String × MetadataHeaderG)) :
    List (String × MetadataHeaderG) :=
  md.map (fun p => (p.1, { p.2 with name := p.1, docName := some docName }))

/-- Generators-package document: metadata sub-registry plus derived state. -/
abbrev DocumentG := PDoc (List (String × MetadataHeaderG))

/-- Model of constructing a generators-package `Document`: its
`model_post_init` derives `_all_refs` from the metadata fields and leaves
`_refed_by` empty; `doc_name` starts unset. -/
def mkDocumentG (md : List (String × MetadataHeaderG)) : DocumentG :=
  { meta := md
    allRefs := documentAllRefs MetadataHeaderG.format MetadataHeaderG.typeList md
    refedBy := []
    docName := none }

/-- Model of `Documents.model_post_init` for the generators package. -/
def documentsPostInit (docs : List (String × DocumentG)) :
    Option (List (String × DocumentG)) :=
  docsPass stampMetaG docs

/-!
Base document types (`spec/base_types.py`).  `DocTypeId` values are UUIDv4s
compared by value; they are modelled by their canonical strings.
-/

/-- Model of `BaseTypes` after `model_post_init`: the declared forward mapping
plus the derived `_for_uuid` reverse lookup. -/
structure BaseTypesM where
  root : List (String × String)
  forUuid : List (String × String)
deriving DecidableEq

/-- Reverse-map construction of `BaseTypes.model_post_init`: iterate the
forward map in insertion order, `self._for_uuid[v] = k`.  A UUID used by more
than one name keeps only the binding written last; nothing is rejected. -/
def buildReverse (root : List (String × String)) : List (String × String) :=
  root.foldl (fun acc p => dictInsert acc p.2 p.1) []

/-- Model of loading a `base_types` mapping: `model_post_init` has no failure
path, it only builds `_for_uuid`. -/
def mkBaseTypes (root : List (String × String)) : BaseTypesM :=
  { root := root, forUuid := buildReverse root }

/-- Model of `BaseTypes.uuid` (a missing name raises `KeyError`). -/
def btUuid (bt : BaseTypesM) (name : String) : Option String :=
  findA bt.root name

/-- Model of `BaseTypes.name` (a missing UUID raises `KeyError`). -/
def btName (bt : BaseTypesM) (uuid : String) : Option String :=
  findA bt.forUuid uuid

/-!
CDDL definitions (`spec/cddl/definition.py`).  The recursive resolver
`_nested_cddl` is modelled with explicit fuel: the fuel bounds the depth of
the Python call tree, and a result of `none` at every fuel means the Python
recursion never returns.
-/

/-- Model of `CDDLDefinition` (field `def` is called `definition`). -/
structure CDDLDef where
  definition : String
  requires : List String
  description : Option String
  comment : String
deriving DecidableEq

/-- Model of Python `str.splitlines` for strings whose only line separator is
a newline character: a trailing newline does not produce an empty final line,
and the empty string has no lines. -/
def pySplitlines (s : String) : List String :=
  if s = "" then []
  else
    let parts := splitNL s
    if endsWithNL s then parts.dropLast else parts

/-- Model of `CDDLDefinitions._add_cddl_comments`: prefix every line of the
stripped comment with a CDDL comment marker; the boolean is
`len(comment_lines) > 0`, true for every nonempty stripped comment. -/
def addCddlComments (comment : String) : String × Bool :=
  let commentLines := pySplitlines (pyStrip comment)
  (pyStrip (String.join (commentLines.map (fun line => "; " ++ line ++ "\n"))),
    commentLines.length > 0)

mutual

/-- Model of `CDDLDefinitions._nested_cddl` with fuel.  A missing definition
name (`KeyError`) and fuel exhaustion both give `none`. -/
def nestedCddl (defs : List (String × CDDLDef)) :
    Nat → String → List String → Option (String × List String)
  | 0, _, _ => none
  | fuel + 1, name, found =>
    match findA defs name with
    | none => none
    | some thisDef =>
      let cddlDefStr := pyStrip thisDef.definition
      let defMultiline := (pySplitlines cddlDefStr).length > 1
      match nestedCddlReqs defs fuel thisDef.requires "" found with
      | none => none
      | some (thisCddl, found2) =>
        let lc :=
          if thisDef.comment.length > 0 then
            let pr := addCddlComments thisDef.comment
            if pr.2 || defMultiline then (pr.1, "\n") else ("", pr.1)
          else ("", thisDef.comment)
        some ("\n" ++ lc.1 ++ "\n" ++ name ++ " = " ++ cddlDefStr ++ " " ++ lc.2
            ++ "\n\n" ++ thisCddl ++ "\n", found2)
termination_by f n fd => (f, 0)

/-- Loop of `_nested_cddl` over `this_def.requires`: a name already in `found`
is skipped, otherwise it is expanded recursively and appended to `found`
only after its expansion returns. -/
def nestedCddlReqs (defs : List (String × CDDLDef)) :
    Nat → List String → String → List String → Option (String × List String)
  | _, [], acc, found => some (acc, found)
  | fuel, r :: rest, acc, found =>
    if r ∈ found then nestedCddlReqs defs fuel rest acc found
    else
      match nestedCddl defs fuel r found with
      | none => none
      | some (nextCddl, found2) =>
        nestedCddlReqs defs fuel rest (acc ++ nextCddl) (found2 ++ [r])
termination_by f rs acc fd => (f, rs.length + 1)

end

/-- Run-length model of `re.sub` with pattern two newlines followed by one or
more newlines: every run of three or more newlines collapses to two.  The
second argument counts the newlines just emitted. -/
def collapseNLAux : List Char → Nat → List Char
  | [], _ => []
  | c :: rest, run =>
    if c = '\n' then
      if 2 ≤ run then collapseNLAux rest run
      else '\n' :: collapseNLAux rest (run + 1)
    else c :: collapseNLAux rest 0

/-- String form of the newline-collapsing substitution in `cddl_file`. -/
def collapseNL (s : String) : String :=
  String.mk (collapseNLAux s.data 0)

/-- Model of `CDDLDefinitions.cddl_file` with fuel (the specification's
`resolve_full_grammar`). -/
def cddlFileF (defs : List (String × CDDLDef)) (fuel : Nat) (root : String) : Option String :=
  match nestedCddl defs fuel root [] with
  | none => none
  | some (cddlData0, _) =>
    match findA defs root with
    | none => none
    | some rootDef =>
      let description := match rootDef.description with
        | none => root
        | some s => s
      let description := (addCddlComments description).1
      let cddlData := collapseNL cddlData0
      some ("\n" ++ description ++ "\n\n\n" ++ pyStrip cddlData ++ "\n")

/-!
Document clusters (`spec/doc_clusters.py`).
-/

/-- Model of `DocCluster`: its member list and its stamped name. -/
structure DocClusterG where
  docs : List String
  name : String
deriving DecidableEq

/-- Model of `DocCluster.is_cluster`: `Counter(self.docs) == Counter(match)`,
multiset equality of the two lists. -/
def isClusterG (c : DocClusterG) (ref : List String) : Bool :=
  decide (List.Perm c.docs ref)

/-- Model of `DocClusters.for_ref`: first cluster whose member multiset
matches, else `None`. -/
def forRefG (clusters : List (String × DocClusterG)) (ref : List String) :
    Option DocClusterG :=
  (clusters.find? (fun p => isClusterG p.2 ref)).map (fun p => p.2)

/-!
The `gen_docs` flavor of the code base (`specs/gen_docs/spec/*`): metadata
fields carry an `exclusive` list and public `name`/`doc_name` fields.
-/

/-- Model of `Metadata` (`gen_docs/spec/metadata.py`), including the
`name`/`doc_name` context left `None` by deserialization. -/
structure MetadataD where
  description : String
  rawExclusive : Option (List String)
  format : String
  required : OptionalField
  validation : Option String
  rawType : StrOrList
  multiple : Bool
  rawLinkedRefs : Option (List String)
  name : Option String
  docName : Option String
deriving DecidableEq

/-- Computed `exclusive` property of a gen_docs metadata field. -/
def MetadataD.exclusive (m : MetadataD) : List String :=
  fixListO m.rawExclusive

/-- Computed `type` property of a gen_docs metadata field. -/
def MetadataD.typeList (m : MetadataD) : List String :=
  fixList m.rawType

/-- Computed `linked_refs` property of a gen_docs metadata field. -/
def MetadataD.linkedRefs (m : MetadataD) : List String :=
  fixListO m.rawLinkedRefs

/-- Model of `Metadata.set_name` (gen_docs): assign `name` and `doc_name`. -/
def MetadataD.setName (m : MetadataD) (n : String) (docName : Option String) : MetadataD :=
  { m with name := some n, docName := docName }

/-- Stamping performed by gen_docs `Document.set_name` on the document's
metadata dict: each entry gets its key as `name` and the document's name. -/
def stampMetaD (docName : String) (md : List (String × MetadataD)) :
    List (String × MetadataD) :=
  md.map (fun p => (p.1, p.2.setName p.1 (some docName)))

/-- Gen_docs document: metadata sub-registry plus derived state. -/
abbrev DocumentD := PDoc (List (String × MetadataD))

/-- Model of constructing a gen_docs `Document`: `model_post_init` derives
`_all_refs` from the metadata fields, `_refed_by` starts empty. -/
def mkDocumentD (md : List (String × MetadataD)) : DocumentD :=
  { meta := md
    allRefs := documentAllRefs MetadataD.format MetadataD.typeList md
    refedBy := []
    docName := none }

/-- Model of a gen_docs `DocCluster` before name stamping. -/
structure DocClusterD where
  docs : List String
  name : Option String
deriving DecidableEq

/-- State slice of the gen_docs `SignedDoc` model touched by the claims: the
global metadata registry, the documents, and the clusters. -/
structure SignedDocD where
  metadata : List (String × MetadataD)
  docs : List (String × DocumentD)
  clusters : List (String × DocClusterD)
deriving DecidableEq

/-- Model of gen_docs `SignedDoc.model_post_init`: stamp cluster names, then
stamp document names and register every document reference; a dangling
reference raises `KeyError` (`none`).  No other validation runs. -/
def loadGenDocs (s : SignedDocD) : Option SignedDocD :=
  match docsPass stampMetaD s.docs with
  | none => none
  | some docs2 =>
    some { s with
      clusters := s.clusters.map (fun p => (p.1, { p.2 with name := some p.1 }))
      docs := docs2 }

/-- Model of gen_docs `SignedDoc.get_metadata`: fetch the definition from the
global registry or from a document, then `set_name` on the stored object; the
returned state carries the mutation. -/
def getMetadataD (s : SignedDocD) (metadataName : String) (docName : Option String) :
    Option (MetadataD × SignedDocD) :=
  match docName with
  | none =>
    match findA s.metadata metadataName with
    | none => none
    | some md =>
      let md2 := md.setName metadataName none
      some (md2, { s with metadata := updateA s.metadata metadataName md2 })
  | some dn =>
    match findA s.docs dn with
    | none => none
    | some doc =>
      match findA doc.meta metadataName with
      | none => none
      | some md =>
        let md2 := md.setName metadataName (some dn)
        some (md2, { s with
          docs := updateA s.docs dn { doc with meta := updateA doc.meta metadataName md2 } })

/-- Model of gen_docs `SignedDoc.get_document`: fetch the document and run
`doc.set_name(doc_name)` on the stored object before returning it. -/
def getDocumentD (s : SignedDocD) (docName : String) : Option (DocumentD × SignedDocD) :=
  match findA s.docs docName with
  | none => none
  | some doc =>
    let doc2 := setDocName stampMetaD docName doc
    some (doc2, { s with docs := updateA s.docs docName doc2 })

/-!
Validation narrative of a gen_docs metadata field
(`gen_docs/spec/metadata.py`, `Metadata.get_validation`).
-/

/-- Exclusive-list rendering of `get_validation`: the first member, then (only
when the list has more than two members) each middle member prefixed by a
comma, then the last member prefixed by the word and. -/
def exclusiveDefStr : List String → String
  | [] => ""
  | x :: rest =>
    let first := "\n`" ++ x ++ "`"
    if rest = [] then first
    else
      let middles := if (x :: rest).length > 2 then ((x :: rest).drop 1).dropLast else []
      first
        ++ middles.foldl (fun acc exclude => acc ++ ("\n, `" ++ exclude ++ "`")) ""
        ++ "\nand `" ++ (x :: rest).getLast (by simp) ++ "`"

/-- Mutual-exclusivity sentence appended by `get_validation` when the
`exclusive` list is nonempty. -/
def exclusiveClause (exclusive : List String) : String :=
  if exclusive.length > 0 then
    "\n* MUST NOT be present in any document that contains "
      ++ exclusiveDefStr exclusive ++ " metadata."
  else ""

/-- Python rendering of an optional string in an f-string (`None` prints as
the word None). -/
def pyOptStr : Option String → String
  | none => "None"
  | some s => s

/-- Linked-reference clauses appended by `get_validation`. -/
def linkedRefClauses (name : Option String) (linkedRefs : List String) : String :=
  linkedRefs.foldl
    (fun acc ref => acc
      ++ "\n* The Document referenced by `" ++ ref ++ "`"
      ++ "\n  * MUST contain `" ++ pyOptStr name ++ "` metadata; AND"
      ++ "\n  * MUST match the referencing documents `" ++ pyOptStr name ++ "` value.")
    ""

/-- Model of gen_docs `Metadata.get_validation`.  When the stored `validation`
is `None` the Python code raises (`None + str` or `None.strip()`), modelled as
`none`. -/
def getValidationD (m : MetadataD) : Option String :=
  match m.validation with
  | none => none
  | some v =>
    some (pyStrip (v ++ exclusiveClause m.exclusive ++ linkedRefClauses m.name m.linkedRefs))

/-- Declarative form of the exclusive-list rendering: first member bare,
every middle member prefixed by a comma, the last member prefixed by the word
and, each on its own line and quoted in backticks. -/
def sepList : List String → String
  | [] => ""
  | [x] => "\n`" ++ x ++ "`"
  | x :: y :: rest =>
    "\n`" ++ x ++ "`"
      ++ String.join (((y :: rest).dropLast).map (fun m => "\n, `" ++ m ++ "`"))
      ++ "\nand `" ++ (y :: rest).getLast (by simp) ++ "`"

/-- Oxford-style join of backtick-quoted members, as the specification's
claimed clause format describes: a comma between members and a comma plus the
word and before the last of three or more. -/
def oxfordJoin : List String → String
  | [] => ""
  | [x] => "`" ++ x ++ "`"
  | x :: y :: rest =>
    String.intercalate ", " (((x :: y :: rest).dropLast).map (fun m => "`" ++ m ++ "`"))
      ++ ", and `" ++ (y :: rest).getLast (by simp) ++ "`"

/-- Clause format claimed by the specification for mutual exclusivity.
Modelled from the spec: the narrative is said to read MUST NOT be present in
any document that also contains metadata, followed by the Oxford-joined
members.  It is compared against the implemented clause. -/
def specClauseC8 (members : List String) : String :=
  "MUST NOT be present in any document that also contains metadata "
    ++ oxfordJoin members

/-!
Synthetic CDDL definition for a header set
(`gen_docs/spec/signed_doc.py`, `SignedDoc.cddl_def` / `synthetic_headers`).
These functions work on the raw specification data (`self._data`), so headers
are modelled as raw records and missing keys follow Python `dict.get`.
-/

/-- Raw header record as read from the specification data by
`synthetic_headers`: the `required` string, the optional `exclusive` list,
the optional `coseLabel` (string or integer) and the `format` name. -/
structure RawHeader where
  required : String
  exclusive : Option (List String)
  coseLabel : Option (String ⊕ Int)
  format : Option String
deriving DecidableEq

/-- Raw CDDL definition record (`_data` entry): `synthetic_headers` overwrites
its `def` and `requires` keys; after synthesis `requires` may contain `None`
entries because unresolved CDDL types are appended as-is. -/
structure RawCddlDef where
  definition : String
  requires : List (Option String)
  description : Option String
  comment : Option String
deriving DecidableEq

/-- Model of `SignedDoc.headers_and_order`: the declared order, followed by
every header that the order does not already list, in insertion order.
Names listed in the order but absent from the headers dict are kept. -/
def headersAndOrder (headers : List (String × RawHeader)) (order : List String) :
    List String :=
  order ++ (keysA headers).filter (fun h => decide (h ∉ order))

/-- Model of `SignedDoc.cddl_type_for_metadata`: a chain of `dict.get` steps,
each propagating `None`. -/
def cddlTypeForMetadata (headers : List (String × RawHeader))
    (formats : List (String × Option String)) (name : String) : Option String :=
  match findA headers name with
  | none => none
  | some h =>
    match h.format with
    | none => none
    | some f =>
      match findA formats f with
      | none => none
      | some cddl => cddl

/-- CDDL map key for a header: the `coseLabel` when present (strings are
quoted, integers rendered in decimal), else the quoted header name. -/
def pyFieldName (coseLabel : Option (String ⊕ Int)) (header : String) : String :=
  match coseLabel with
  | none => "\"" ++ header ++ "\""
  | some (Sum.inl s) => "\"" ++ s ++ "\""
  | some (Sum.inr i) => toString i

/-- Model of Python `list.sort` on strings (stable sort by code points; equal
strings are identical, so the sorted list is unique). -/
def pySort (l : List String) : List String :=
  l.insertionSort (fun a b => pyStrLeL a.data b.data = true)

/-- Accumulator of the first `synthetic_headers` loop: the grammar lines of
the non-exclusive fields, the `requires` list, and the exclusive groups found
so far. -/
structure SynthState where
  cddlDef : String
  requires : List (Option String)
  exclusives : List (List String)
deriving DecidableEq

/-- First `synthetic_headers` loop.  A header with an `exclusive` list only
contributes its sorted group (header name included) to `exclusives`, skipping
groups already collected; other headers emit one grammar line, optional
unless `required == "yes"`.  A header name with no headers entry raises
`KeyError`.  In Python the group is built by mutating the raw `exclusive`
list in place (`append`/`sort`); within one invocation that equals the pure
computation modelled here because each raw list is read once. -/
def synthFirstLoop (headers : List (String × RawHeader))
    (formats : List (String × Option String)) :
    List String → SynthState → Option SynthState
  | [], st => some st
  | h :: rest, st =>
    match findA headers h with
    | none => none
    | some data =>
      match data.exclusive with
      | some e =>
        let g := pySort (e ++ [h])
        let ex2 := if g ∈ st.exclusives then st.exclusives else st.exclusives ++ [g]
        synthFirstLoop headers formats rest
          { cddlDef := st.cddlDef, requires := st.requires, exclusives := ex2 }
      | none =>
        let optionalMark := if data.required = "yes" then "" else "?"
        let ct := cddlTypeForMetadata headers formats h
        let line := optionalMark ++ pyFieldName data.coseLabel h ++ " => " ++ pyOptStr ct ++ "\n"
        let req2 := if ct ∈ st.requires then st.requires else st.requires ++ [ct]
        synthFirstLoop headers formats rest
          { cddlDef := st.cddlDef ++ line, requires := req2, exclusives := st.exclusives }

/-- Per-group inner loop of the second `synthetic_headers` loop: render one
`label => type` field per group member and extend `requires`. -/
def synthBlockLoop (headers : List (String × RawHeader))
    (formats : List (String × Option String)) :
    List String → List String → List (Option String) →
    Option (List String × List (Option String))
  | [], fields, req => some (fields, req)
  | entry :: rest, fields, req =>
    match findA headers entry with
    | none => none
    | some data =>
      let ct := cddlTypeForMetadata headers formats entry
      let fieldStr := pyFieldName data.coseLabel entry ++ " => " ++ pyOptStr ct
      let req2 := if ct ∈ req then req else req ++ [ct]
      synthBlockLoop headers formats rest (fields ++ [fieldStr]) req2

/-- Second `synthetic_headers` loop: one alternation block per collected
exclusive group, appended to the grammar text; the block is always rendered
optional. -/
def synthSecondLoop (headers : List (String × RawHeader))
    (formats : List (String × Option String)) :
    List (List String) → String → List (Option String) →
    Option (String × List (Option String))
  | [], cddlDef, req => some (cddlDef, req)
  | g :: rest, cddlDef, req =>
    match synthBlockLoop headers formats g [] req with
    | none => none
    | some (fields, req2) =>
      let block := pyStrip ("? (\n    " ++ String.intercalate " //\n    " fields ++ "\n)\n")
      synthSecondLoop headers formats rest (cddlDef ++ block) req2

/-- Model of `textwrap.indent` with a two-space prefix: the prefix is added to
every line that is not pure whitespace. -/
def pyIndent (text : String) (prefixStr : String) : String :=
  String.intercalate "\n"
    ((splitNL text).map (fun line => if pyStrip line = "" then line else prefixStr ++ line))

/-- Model of `synthetic_headers`: reset `requires`, run both loops over the
ordered header names, and wrap the grammar lines in an indented group. -/
def syntheticHeaders (baseDef : RawCddlDef) (headers : List (String × RawHeader))
    (order : List String) (formats : List (String × Option String)) :
    Option RawCddlDef :=
  let names := headersAndOrder headers order
  match synthFirstLoop headers formats names
      { cddlDef := "", requires := [], exclusives := [] } with
  | none => none
  | some st =>
    match synthSecondLoop headers formats st.exclusives st.cddlDef st.requires with
    | none => none
    | some (cddlDef, req) =>
      some { baseDef with
        definition := "(\n" ++ pyIndent cddlDef "  " ++ ")"
        requires := req }

/-!
Concrete instances used by the scenario parts of the claims and by the
witnesses.
-/

/-- Generators-package metadata field `template`, a document reference to the
Proposal Form Template document. -/
def hdrTemplate : MetadataHeaderG :=
  { coseLabel := none
    description := "Reference to the template."
    required := OptionalField.required
    format := "Document Reference"
    validation := none
    rawType := StrOrList.many ["Proposal Form Template"]
    multiple := false
    rawLinkedRefs := none
    name := "Unknown"
    docName := none }

/-- Generators-package metadata field with a plain (non-reference) format. -/
def hdrPlain : MetadataHeaderG :=
  { coseLabel := none
    description := "A plain field."
    required := OptionalField.optionalF
    format := "UUIDv7"
    validation := none
    rawType := StrOrList.null
    multiple := false
    rawLinkedRefs := none
    name := "Unknown"
    docName := none }

/-- Two-document registry of the specification's reference scenario. -/
def proposalDocs : List (String × DocumentG) :=
  [("Proposal Form Template", mkDocumentG [("id", hdrPlain)]),
   ("Proposal", mkDocumentG [("template", hdrTemplate)])]

/-- Registry whose only document references a document that does not exist. -/
def danglingDocs : List (String × DocumentG) :=
  [("Proposal", mkDocumentG [("template", hdrTemplate)])]

/-- CDDL definition set with a self-cycle: definition `a` requires itself. -/
def selfCycleDefs : List (String × CDDLDef) :=
  [("a", { definition := "uint", requires := ["a"], description := none, comment := "" })]

/-- CDDL definition set with a mutual cycle between `a` and `b`. -/
def mutualCycleDefs : List (String × CDDLDef) :=
  [("a", { definition := "uint", requires := ["b"], description := none, comment := "" }),
   ("b", { definition := "text", requires := ["a"], description := none, comment := "" })]

/-- Base-types mapping in which one DocTypeId is used by two names. -/
def dupBaseTypes : List (String × String) :=
  [("a", "0ce8ab38-9258-4fbc-a62e-7faa6e58318f"),
   ("b", "0ce8ab38-9258-4fbc-a62e-7faa6e58318f")]

/-- Base-types mapping with distinct DocTypeIds. -/
def goodBaseTypes : List (String × String) :=
  [("a", "0ce8ab38-9258-4fbc-a62e-7faa6e58318f"),
   ("b", "7808d2ba-d511-40af-84e8-c0d1625fdfdc")]

/-- Gen_docs metadata field declaring field B exclusive of it. -/
def mdAsymA : MetadataD :=
  { description := "Field A."
    rawExclusive := some ["B"]
    format := "UUIDv7"
    required := OptionalField.optionalF
    validation := some "Some rule."
    rawType := StrOrList.null
    multiple := false
    rawLinkedRefs := none
    name := none
    docName := none }

/-- Gen_docs metadata field with no exclusivity declaration at all. -/
def mdAsymB : MetadataD :=
  { description := "Field B."
    rawExclusive := none
    format := "UUIDv7"
    required := OptionalField.optionalF
    validation := some "Some rule."
    rawType := StrOrList.null
    multiple := false
    rawLinkedRefs := none
    name := none
    docName := none }

/-- Specification whose exclusivity declarations are asymmetric: A excludes B
while B does not exclude A. -/
def asymSpec : SignedDocD :=
  { metadata := [("A", mdAsymA), ("B", mdAsymB)]
    docs := []
    clusters := [] }

/-- Specification as deserialized, before any accessor runs: the global
metadata entry still has no `name`. -/
def freshSpec : SignedDocD :=
  { metadata := [("template", mdAsymB)]
    docs := []
    clusters := [] }

/-- Fully stamped variant of the same specification: every global metadata
entry already carries its key as `name` and no document scope. -/
def stampedSpec : SignedDocD :=
  { metadata := [("template", mdAsymB.setName "template" none)]
    docs := [("Doc", setDocName stampMetaD "Doc" (mkDocumentD [("f", mdAsymB)]))]
    clusters := [] }

/-- Raw header A of the two-field mutual-exclusivity scenario (note both
fields are declared required, to show the block is still optional). -/
def rawHdrA : RawHeader :=
  { required := "yes", exclusive := some ["B"], coseLabel := none, format := some "UUIDv7" }

/-- Raw header B, mutually exclusive with A. -/
def rawHdrB : RawHeader :=
  { required := "yes", exclusive := some ["A"], coseLabel := none, format := some "UUIDv7" }

/-- Header dict of the two-field scenario. -/
def synHeadersAB : List (String × RawHeader) :=
  [("A", rawHdrA), ("B", rawHdrB)]

/-- Format dict of the two-field scenario. -/
def synFormatsAB : List (String × Option String) :=
  [("UUIDv7", some "uuid_v7")]

/-- Raw CDDL definition record whose `def` and `requires` the synthesis
overwrites. -/
def baseRawDef : RawCddlDef :=
  { definition := "", requires := [], description := none, comment := none }

/-- Gen_docs metadata field with three exclusive partners. -/
def mdExcl3 : MetadataD :=
  { description := "Field with three partners."
    rawExclusive := some ["X", "Y", "Z"]
    format := "UUIDv7"
    required := OptionalField.optionalF
    validation := some "V"
    rawType := StrOrList.null
    multiple := false
    rawLinkedRefs := none
    name := none
    docName := none }

/-- Gen_docs metadata field with exactly one exclusive partner. -/
def mdExcl1 : MetadataD :=
  { description := "Field with one partner."
    rawExclusive := some ["X"]
    format := "UUIDv7"
    required := OptionalField.optionalF
    validation := some "V"
    rawType := StrOrList.null
    multiple := false
    rawLinkedRefs := none
    name := none
    docName := none }

/-- One-cluster registry whose cluster holds the single document A. -/
def clustersSingleA : List (String × DocClusterG) :=
  [("X", { docs := ["A"], name := "X" })]

/-- Cluster registry after one member (C) was removed from the cluster. -/
def clustersShrunk : List (String × DocClusterG) :=
  [("X", { docs := ["A", "B"], name := "X" })]

/-- Rendered `label => type` field of one exclusive-group member, as a total
function (the empty string stands for the `KeyError` case, which cannot occur
on a successful synthesis run). -/
def blockFieldStr (headers : List (String × RawHeader))
    (formats : List (String × Option String)) (entry : String) : String :=
  match findA headers entry with
  | none => ""
  | some data => pyFieldName data.coseLabel entry ++ " => " ++ pyOptStr (cddlTypeForMetadata headers formats entry)

/-- Rendered alternation block of one exclusive group. -/
def blockRender (headers : List (String × RawHeader))
    (formats : List (String × Option String)) (g : List String) : String :=
  pyStrip ("? (\n    " ++ String.intercalate " //\n    " (g.map (blockFieldStr headers formats))
    ++ "\n)\n")

/-- State of `freshSpec` after the first `get_metadata` call: the stored
global metadata entry now carries a name. -/
def freshMutated : SignedDocD :=
  { metadata := [("template", mdAsymB.setName "template" none)]
    docs := []
    clusters := [] }

/-- Document registry produced by the post-initialization pass on the
reference scenario. -/
def proposalDocsOut : List (String × DocumentG) :=
  (documentsPostInit proposalDocs).getD []

/-- The Proposal document after the pass. -/
def proposalOutA : DocumentG :=
  (findA proposalDocsOut "Proposal").getD (mkDocumentG [])

/-- The Proposal Form Template document after the pass. -/
def proposalOutB : DocumentG :=
  (findA proposalDocsOut "Proposal Form Template").getD (mkDocumentG [])

/-!
Helper lemmas about the dict model.
-/

theorem findA_nil {α : Type} (k : String) : findA ([] : List (String × α)) k = none :=
  rfl

theorem findA_cons {α : Type} (p : String × α) (rest : List (String × α)) (k : String) :
    findA (p :: rest) k = if p.1 = k then some p.2 else findA rest k := by
  rcases eq_or_ne p.1 k with h | h
  · unfold findA
    rw [List.find?_cons_of_pos _ (by simp [h])]
    simp [h]
  · unfold findA
    rw [List.find?_cons_of_neg _ (by simp [h])]
    simp [h, findA]

theorem findA_eq_none {α : Type} {l : List (String × α)} {k : String} :
    findA l k = none ↔ k ∉ keysA l := by
  induction l with
  | nil => simp [findA_nil, keysA]
  | cons p rest ih =>
    rcases eq_or_ne p.1 k with h | h
    · simp [findA_cons, h, keysA]
    · simp [findA_cons, h, keysA, Ne.symm h] at ih ⊢
      exact ih

theorem findA_isSome {α : Type} {l : List (String × α)} {k : String} :
    (findA l k).isSome ↔ k ∈ keysA l := by
  rcases h : findA l k with _ | v
  · simp [findA_eq_none.mp h]
  · have : k ∈ keysA l := by
      by_contra hk
      rw [← findA_eq_none] at hk
      simp [h] at hk
    simp [this]

theorem findA_mem {α : Type} {l : List (String × α)} {k : String} {v : α}
    (h : findA l k = some v) : (k, v) ∈ l := by
  induction l with
  | nil => simp [findA_nil] at h
  | cons p rest ih =>
    rw [findA_cons] at h
    split at h
    · rename_i heq
      cases h
      cases p with
      | mk a b =>
        simp only at heq
        subst heq
        exact List.mem_cons_self _ _
    · right
      exact ih h

theorem findA_of_nodup_mem {α : Type} {l : List (String × α)} {k : String} {v : α}
    (hnd : (keysA l).Nodup) (h : (k, v) ∈ l) : findA l k = some v := by
  induction l with
  | nil => simp at h
  | cons p rest ih =>
    unfold keysA at hnd
    rw [List.map_cons, List.nodup_cons] at hnd
    rcases List.mem_cons.mp h with h | h
    · rw [← h, findA_cons, if_pos rfl]
    · have hk : p.1 ≠ k := by
        intro he
        apply hnd.1
        rw [he]
        exact List.mem_map_of_mem Prod.fst h
      rw [findA_cons, if_neg hk]
      exact ih hnd.2 h

theorem keysA_updateA {α : Type} (l : List (String × α)) (k : String) (v : α) :
    keysA (updateA l k v) = keysA l := by
  induction l with
  | nil => rfl
  | cons p rest ih =>
    rcases eq_or_ne p.1 k with h | h
    · simp [updateA, h, keysA]
    · simp [updateA, h, keysA] at ih ⊢
      exact ih

theorem findA_updateA_self {α : Type} {l : List (String × α)} {k : String} {w : α}
    (v : α) (h : findA l k = some w) : findA (updateA l k v) k = some v := by
  induction l with
  | nil => simp [findA_nil] at h
  | cons p rest ih =>
    rcases eq_or_ne p.1 k with he | he
    · simp [updateA, he, findA_cons]
    · rw [findA_cons, if_neg he] at h
      simp only [updateA, if_neg he]
      rw [findA_cons, if_neg he]
      exact ih h

theorem findA_updateA_ne {α : Type} {l : List (String × α)} {k k2 : String} (v : α)
    (h : k2 ≠ k) : findA (updateA l k v) k2 = findA l k2 := by
  induction l with
  | nil => rfl
  | cons p rest ih =>
    rcases eq_or_ne p.1 k with he | he
    · rw [updateA, if_pos he, findA_cons, findA_cons]
      simp [he, Ne.symm h]
    · rw [updateA, if_neg he, findA_cons, findA_cons]
      rcases eq_or_ne p.1 k2 with h2 | h2
      · simp [h2]
      · simp [h2, ih]

theorem updateA_self {α : Type} {l : List (String × α)} {k : String} {v : α}
    (h : findA l k = some v) : updateA l k v = l := by
  induction l with
  | nil => rfl
  | cons p rest ih =>
    rcases eq_or_ne p.1 k with he | he
    · rw [findA_cons, if_pos he] at h
      rw [updateA, if_pos he]
      cases h
      rfl
    · rw [findA_cons, if_neg he] at h
      simp [updateA, he, ih h]

theorem findA_append_of_none {α : Type} {l1 l2 : List (String × α)} {k : String}
    (h : findA l1 k = none) : findA (l1 ++ l2) k = findA l2 k := by
  induction l1 with
  | nil => rfl
  | cons p rest ih =>
    rw [findA_cons] at h
    rcases eq_or_ne p.1 k with he | he
    · simp [he] at h
    · rw [List.cons_append, findA_cons, if_neg he]
      exact ih (by simpa [he] using h)

theorem findA_append_of_some {α : Type} {l1 l2 : List (String × α)} {k : String} {v : α}
    (h : findA l1 k = some v) : findA (l1 ++ l2) k = some v := by
  induction l1 with
  | nil => simp [findA_nil] at h
  | cons p rest ih =>
    rw [findA_cons] at h
    rcases eq_or_ne p.1 k with he | he
    · rw [List.cons_append, findA_cons, if_pos he]
      simpa [he] using h
    · rw [List.cons_append, findA_cons, if_neg he]
      exact ih (by simpa [he] using h)

/-!
Lemmas about the reference-graph pass.
-/

theorem addReferer_meta {μ : Type} (d : PDoc μ) (n : String) :
    (addReferer d n).meta = d.meta := by
  unfold addReferer
  split <;> rfl

theorem addReferer_allRefs {μ : Type} (d : PDoc μ) (n : String) :
    (addReferer d n).allRefs = d.allRefs := by
  unfold addReferer
  split <;> rfl

theorem addReferer_docName {μ : Type} (d : PDoc μ) (n : String) :
    (addReferer d n).docName = d.docName := by
  unfold addReferer
  split <;> rfl

theorem addReferer_refedBy_mem {μ : Type} (d : PDoc μ) (n x : String) :
    x ∈ (addReferer d n).refedBy ↔ x ∈ d.refedBy ∨ x = n := by
  unfold addReferer
  split
  · rename_i h
    constructor
    · exact Or.inl
    · rintro (hx | rfl)
      · exact hx
      · exact h
  · simp

theorem addReferer_idem {μ : Type} (d : PDoc μ) (n : String) :
    addReferer (addReferer d n) n = addReferer d n := by
  by_cases h : n ∈ d.refedBy
  · simp [addReferer, h]
  · simp [addReferer, h]

theorem setDocName_allRefs {μ : Type} (stamp : String → μ → μ) (n : String) (d : PDoc μ) :
    (setDocName stamp n d).allRefs = d.allRefs :=
  rfl

theorem setDocName_refedBy {μ : Type} (stamp : String → μ → μ) (n : String) (d : PDoc μ) :
    (setDocName stamp n d).refedBy = d.refedBy :=
  rfl

theorem registerRefs_keys {μ : Type} {src : String} :
    ∀ {refs : List String} {docs docs' : List (String × PDoc μ)},
      registerRefs docs src refs = some docs' → keysA docs' = keysA docs := by
  intro refs
  induction refs with
  | nil =>
    intro docs docs' h
    cases h
    rfl
  | cons r rest ih =>
    intro docs docs' h
    unfold registerRefs at h
    rcases hf : findA docs r with _ | d
    · rw [hf] at h
      cases h
    · rw [hf] at h
      rw [ih h, keysA_updateA]

theorem registerRefs_some_sub {μ : Type} {src : String} :
    ∀ {refs : List String} {docs docs' : List (String × PDoc μ)},
      registerRefs docs src refs = some docs' → ∀ r ∈ refs, r ∈ keysA docs := by
  intro refs
  induction refs with
  | nil =>
    intro docs docs' _ r hr
    simp at hr
  | cons r0 rest ih =>
    intro docs docs' h r hr
    unfold registerRefs at h
    rcases hf : findA docs r0 with _ | d
    · rw [hf] at h
      cases h
    · rw [hf] at h
      rcases List.mem_cons.mp hr with hr | hr
      · subst hr
        rw [← findA_isSome, hf]
        rfl
      · have := ih h r hr
        rwa [keysA_updateA] at this

theorem registerRefs_total {μ : Type} (src : String) :
    ∀ {refs : List String} {docs : List (String × PDoc μ)},
      (∀ r ∈ refs, r ∈ keysA docs) → ∃ docs', registerRefs docs src refs = some docs' := by
  intro refs
  induction refs with
  | nil =>
    intro docs _
    exact ⟨docs, rfl⟩
  | cons r rest ih =>
    intro docs hsub
    have hr : r ∈ keysA docs := hsub r (List.mem_cons_self _ _)
    rw [← findA_isSome] at hr
    rcases hf : findA docs r with _ | d
    · rw [hf] at hr
      cases hr
    · have hsub2 : ∀ q ∈ rest, q ∈ keysA (updateA docs r (addReferer d src)) := by
        intro q hq
        rw [keysA_updateA]
        exact hsub q (List.mem_cons_of_mem _ hq)
      obtain ⟨docs', h'⟩ := ih hsub2
      refine ⟨docs', ?_⟩
      unfold registerRefs
      rw [hf]
      exact h'

theorem registerRefs_lookup {μ : Type} {src : String} :
    ∀ {refs : List String} {docs docs' : List (String × PDoc μ)},
      registerRefs docs src refs = some docs' →
      ∀ b db, findA docs b = some db →
        findA docs' b = some (if b ∈ refs then addReferer db src else db) := by
  intro refs
  induction refs with
  | nil =>
    intro docs docs' h b db hb
    cases h
    simp [hb]
  | cons r rest ih =>
    intro docs docs' h b db hb
    unfold registerRefs at h
    rcases hf : findA docs r with _ | d
    · rw [hf] at h
      cases h
    · rw [hf] at h
      rcases eq_or_ne b r with hbr | hbr
      · subst hbr
        have hdd : d = db := by
          rw [hf] at hb
          cases hb
          rfl
        subst hdd
        have h1 : findA (updateA docs b (addReferer d src)) b = some (addReferer d src) :=
          findA_updateA_self _ hb
        have := ih h b (addReferer d src) h1
        rcases List.instDecidableMemOfLawfulBEq b rest with hmem | hmem
        · rw [if_neg hmem] at this
          rw [this, if_pos (List.mem_cons_self _ _)]
        · rw [if_pos hmem, addReferer_idem] at this
          rw [this, if_pos (List.mem_cons_self _ _)]
      · have h1 : findA (updateA docs r (addReferer d src)) b = findA docs b :=
          findA_updateA_ne _ hbr
        have := ih h b db (by rw [h1, hb])
        rcases List.instDecidableMemOfLawfulBEq b rest with hmem | hmem
        · rw [if_neg hmem] at this
          rw [this, if_neg (by simp [hbr, hmem])]
        · rw [if_pos hmem] at this
          rw [this, if_pos (List.mem_cons_of_mem _ hmem)]

theorem passStep_lookup {μ : Type} {stamp : String → μ → μ}
    {docs docs2 : List (String × PDoc μ)} {n : String} {d : PDoc μ}
    (hfn : findA docs n = some d)
    (hreg : registerRefs (updateA docs n (setDocName stamp n d)) n d.allRefs = some docs2) :
    ∀ x dx0, findA docs x = some dx0 →
      ∃ dx2, findA docs2 x = some dx2 ∧ dx2.allRefs = dx0.allRefs ∧
        (∀ y, y ∈ dx2.refedBy ↔ y ∈ dx0.refedBy ∨ (y = n ∧ x ∈ d.allRefs)) := by
  intro x dx0 hx
  have hd1 : ∃ d1x, findA (updateA docs n (setDocName stamp n d)) x = some d1x ∧
      d1x.allRefs = dx0.allRefs ∧ d1x.refedBy = dx0.refedBy := by
    rcases eq_or_ne x n with hxn | hxn
    · subst hxn
      have hdd : dx0 = d := by
        rw [hfn] at hx
        cases hx
        rfl
      subst hdd
      exact ⟨setDocName stamp x dx0, findA_updateA_self _ hfn,
        setDocName_allRefs _ _ _, setDocName_refedBy _ _ _⟩
    · exact ⟨dx0, by rw [findA_updateA_ne _ hxn, hx], rfl, rfl⟩
  obtain ⟨d1x, hd1f, hd1a, hd1r⟩ := hd1
  have h2 := registerRefs_lookup hreg x d1x hd1f
  by_cases hmem : x ∈ d.allRefs
  · rw [if_pos hmem] at h2
    refine ⟨addReferer d1x n, h2, by rw [addReferer_allRefs, hd1a], ?_⟩
    intro y
    rw [addReferer_refedBy_mem, hd1r]
    constructor
    · rintro (hy | rfl)
      · exact Or.inl hy
      · exact Or.inr ⟨rfl, hmem⟩
    · rintro (hy | ⟨rfl, _⟩)
      · exact Or.inl hy
      · exact Or.inr rfl
  · rw [if_neg hmem] at h2
    refine ⟨d1x, h2, hd1a, ?_⟩
    intro y
    rw [hd1r]
    constructor
    · exact Or.inl
    · rintro (hy | ⟨rfl, hc⟩)
      · exact hy
      · exact absurd hc hmem

theorem passStep_keys {μ : Type} {stamp : String → μ → μ}
    {docs docs2 : List (String × PDoc μ)} {n : String} {d : PDoc μ}
    (hreg : registerRefs (updateA docs n (setDocName stamp n d)) n d.allRefs = some docs2) :
    keysA docs2 = keysA docs := by
  rw [registerRefs_keys hreg, keysA_updateA]

theorem docsPassAux_keys {μ : Type} {stamp : String → μ → μ} :
    ∀ {names : List String} {docs docs' : List (String × PDoc μ)},
      docsPassAux stamp docs names = some docs' → keysA docs' = keysA docs := by
  intro names
  induction names with
  | nil =>
    intro docs docs' h
    cases h
    rfl
  | cons n rest ih =>
    intro docs docs' h
    unfold docsPassAux at h
    rcases hfn : findA docs n with _ | d
    · rw [hfn] at h
      cases h
    · rw [hfn] at h
      simp only at h
      rcases hreg : registerRefs (updateA docs n (setDocName stamp n d)) n d.allRefs
        with _ | docs2
      · rw [hreg] at h
        cases h
      · rw [hreg] at h
        rw [ih h, passStep_keys hreg]

theorem docsPassAux_lookup {μ : Type} {stamp : String → μ → μ} :
    ∀ {names : List String} {docs docs' : List (String × PDoc μ)},
      docsPassAux stamp docs names = some docs' →
      ∀ b db, findA docs b = some db →
        ∃ db', findA docs' b = some db' ∧ db'.allRefs = db.allRefs ∧
          (∀ x, x ∈ db'.refedBy ↔ x ∈ db.refedBy ∨
            (x ∈ names ∧ ∃ dx, findA docs x = some dx ∧ b ∈ dx.allRefs)) := by
  intro names
  induction names with
  | nil =>
    intro docs docs' h b db hb
    cases h
    exact ⟨db, hb, rfl, by simp⟩
  | cons n rest ih =>
    intro docs docs' h b db hb
    unfold docsPassAux at h
    rcases hfn : findA docs n with _ | d
    · rw [hfn] at h
      cases h
    · rw [hfn] at h
      simp only at h
      rcases hreg : registerRefs (updateA docs n (setDocName stamp n d)) n d.allRefs
        with _ | docs2
      · rw [hreg] at h
        cases h
      · rw [hreg] at h
        obtain ⟨e2, he2f, he2a, he2r⟩ := passStep_lookup hfn hreg b db hb
        obtain ⟨db', hf', ha', hr'⟩ := ih h b e2 he2f
        refine ⟨db', hf', by rw [ha', he2a], ?_⟩
        intro x
        rw [hr', he2r x]
        have htrans : (∃ dx, findA docs2 x = some dx ∧ b ∈ dx.allRefs) ↔
            (∃ dx0, findA docs x = some dx0 ∧ b ∈ dx0.allRefs) := by
          constructor
          · rintro ⟨dx, hdxf, hdxm⟩
            rcases hx0 : findA docs x with _ | dx0
            · exfalso
              have hnone : findA docs2 x = none := by
                rw [findA_eq_none, passStep_keys hreg, ← findA_eq_none]
                exact hx0
              rw [hdxf] at hnone
              cases hnone
            · obtain ⟨dx2, hdx2f, hdx2a, _⟩ := passStep_lookup hfn hreg x dx0 hx0
              rw [hdxf] at hdx2f
              cases hdx2f
              exact ⟨dx0, rfl, by rwa [← hdx2a]⟩
          · rintro ⟨dx0, hdx0f, hdx0m⟩
            obtain ⟨dx2, hdx2f, hdx2a, _⟩ := passStep_lookup hfn hreg x dx0 hdx0f
            exact ⟨dx2, hdx2f, by rwa [hdx2a]⟩
        rw [htrans]
        constructor
        · rintro ((hx | ⟨rfl, hm⟩) | ⟨hx, hP⟩)
          · exact Or.inl hx
          · exact Or.inr ⟨List.mem_cons_self _ _, d, hfn, hm⟩
          · exact Or.inr ⟨List.mem_cons_of_mem _ hx, hP⟩
        · rintro (hx | ⟨hx, dx, hdxf, hdxm⟩)
          · exact Or.inl (Or.inl hx)
          · rcases List.mem_cons.mp hx with rfl | hx
            · have hdd : dx = d := by
                rw [hfn] at hdxf
                cases hdxf
                rfl
              subst hdd
              exact Or.inl (Or.inr ⟨rfl, hdxm⟩)
            · exact Or.inr ⟨hx, dx, hdxf, hdxm⟩

theorem docsPassAux_resolves {μ : Type} {stamp : String → μ → μ} :
    ∀ {names : List String} {docs docs' : List (String × PDoc μ)},
      docsPassAux stamp docs names = some docs' →
      ∀ n ∈ names, ∀ d, findA docs n = some d → ∀ r ∈ d.allRefs, r ∈ keysA docs := by
  intro names
  induction names with
  | nil =>
    intro docs docs' _ n hn
    simp at hn
  | cons n0 rest ih =>
    intro docs docs' h n hn d hd r hr
    unfold docsPassAux at h
    rcases hfn : findA docs n0 with _ | d0
    · rw [hfn] at h
      cases h
    · rw [hfn] at h
      simp only at h
      rcases hreg : registerRefs (updateA docs n0 (setDocName stamp n0 d0)) n0 d0.allRefs
        with _ | docs2
      · rw [hreg] at h
        cases h
      · rw [hreg] at h
        rcases List.mem_cons.mp hn with rfl | hn
        · have hdd : d = d0 := by
            rw [hfn] at hd
            cases hd
            rfl
          subst hdd
          have := registerRefs_some_sub hreg r hr
          rwa [keysA_updateA] at this
        · obtain ⟨dx2, hdx2f, hdx2a, _⟩ := passStep_lookup hfn hreg n d hd
          have := ih h n hn dx2 hdx2f r (by rwa [hdx2a])
          rwa [passStep_keys hreg] at this

theorem docsPassAux_total {μ : Type} (stamp : String → μ → μ) :
    ∀ {names : List String} {docs : List (String × PDoc μ)},
      (∀ n ∈ names, n ∈ keysA docs) →
      (∀ n d, findA docs n = some d → ∀ r ∈ d.allRefs, r ∈ keysA docs) →
      ∃ docs', docsPassAux stamp docs names = some docs' := by
  intro names
  induction names with
  | nil =>
    intro docs _ _
    exact ⟨docs, rfl⟩
  | cons n rest ih =>
    intro docs hmem hres
    have hn : n ∈ keysA docs := hmem n (List.mem_cons_self _ _)
    rw [← findA_isSome] at hn
    rcases hfn : findA docs n with _ | d
    · rw [hfn] at hn
      cases hn
    · have hsub : ∀ r ∈ d.allRefs, r ∈ keysA (updateA docs n (setDocName stamp n d)) := by
        intro r hr
        rw [keysA_updateA]
        exact hres n d hfn r hr
      obtain ⟨docs2, hreg⟩ := registerRefs_total n hsub
      have hmem2 : ∀ m ∈ rest, m ∈ keysA docs2 := by
        intro m hm
        rw [passStep_keys hreg]
        exact hmem m (List.mem_cons_of_mem _ hm)
      have hres2 : ∀ m dm, findA docs2 m = some dm → ∀ r ∈ dm.allRefs, r ∈ keysA docs2 := by
        intro m dm hdm r hr
        have hm : m ∈ keysA docs := by
          rw [← passStep_keys hreg, ← findA_isSome, hdm]
          rfl
        rw [← findA_isSome] at hm
        rcases hm0 : findA docs m with _ | dm0
        · rw [hm0] at hm
          cases hm
        · obtain ⟨dx2, hdx2f, hdx2a, _⟩ := passStep_lookup hfn hreg m dm0 hm0
          rw [hdm] at hdx2f
          cases hdx2f
          rw [passStep_keys hreg]
          exact hres m dm0 hm0 r (by rwa [← hdx2a])
      obtain ⟨docs', h'⟩ := ih hmem2 hres2
      refine ⟨docs', ?_⟩
      unfold docsPassAux
      rw [hfn]
      simp only
      rw [hreg]
      exact h'

theorem collectRefs_aux {η : Type} (fmt : η → String) (typ : η → List String) :
    ∀ (entries : List (String × η)) (init : List String) (x : String),
      x ∈ entries.foldl
          (fun acc p => if fmt p.2 = "Document Reference" then acc ++ typ p.2 else acc) init ↔
        x ∈ init ∨ ∃ k m, (k, m) ∈ entries ∧ fmt m = "Document Reference" ∧ x ∈ typ m := by
  intro entries
  induction entries with
  | nil =>
    intro init x
    simp
  | cons p rest ih =>
    intro init x
    rw [List.foldl_cons, ih]
    by_cases hp : fmt p.2 = "Document Reference"
    · rw [if_pos hp]
      constructor
      · rintro (hx | hx)
        · rcases List.mem_append.mp hx with hx | hx
          · exact Or.inl hx
          · exact Or.inr ⟨p.1, p.2, List.mem_cons_self _ _, hp, hx⟩
        · obtain ⟨k, m, hk, hf, hm⟩ := hx
          exact Or.inr ⟨k, m, List.mem_cons_of_mem _ hk, hf, hm⟩
      · rintro (hx | ⟨k, m, hk, hf, hm⟩)
        · exact Or.inl (List.mem_append.mpr (Or.inl hx))
        · rcases List.mem_cons.mp hk with hk | hk
          · refine Or.inl (List.mem_append.mpr (Or.inr ?_))
            have : (k, m).2 = p.2 := by rw [hk]
            rwa [← this]
          · exact Or.inr ⟨k, m, hk, hf, hm⟩
    · rw [if_neg hp]
      constructor
      · rintro (hx | ⟨k, m, hk, hf, hm⟩)
        · exact Or.inl hx
        · exact Or.inr ⟨k, m, List.mem_cons_of_mem _ hk, hf, hm⟩
      · rintro (hx | ⟨k, m, hk, hf, hm⟩)
        · exact Or.inl hx
        · rcases List.mem_cons.mp hk with hk | hk
          · exfalso
            apply hp
            have : (k, m).2 = p.2 := by rw [hk]
            rwa [← this]
          · exact Or.inr ⟨k, m, hk, hf, hm⟩

theorem collectRefs_mem {η : Type} (fmt : η → String) (typ : η → List String)
    (entries : List (String × η)) (x : String) :
    x ∈ collectRefs fmt typ entries ↔
      ∃ k m, (k, m) ∈ entries ∧ fmt m = "Document Reference" ∧ x ∈ typ m := by
  unfold collectRefs
  rw [collectRefs_aux]
  simp

/-!
Claim theorems.
-/

/-- C1: after a successful `Documents.model_post_init` pass over freshly
constructed documents, the back-reference sets are exactly the inverse of the
forward reference sets: for all documents A and B of the loaded registry,
B is in `all_references(A)` iff A is in `all_docs_referencing(B)`. -/
theorem documents_reference_graph_symmetric
    (docs docsOut : List (String × DocumentG))
    (hfresh : ∀ p ∈ docs, (p.2).refedBy = ([] : List String))
    (hload : documentsPostInit docs = some docsOut) :
    ∀ A B dA dB, findA docsOut A = some dA → findA docsOut B = some dB →
      (B ∈ dA.allRefs ↔ A ∈ dB.refedBy) := by
  intro A B dA dB hA hB
  unfold documentsPostInit docsPass at hload
  have hkeys := docsPassAux_keys hload
  have hAk : A ∈ keysA docs := by
    rw [← hkeys, ← findA_isSome, hA]
    rfl
  have hBk : B ∈ keysA docs := by
    rw [← hkeys, ← findA_isSome, hB]
    rfl
  rcases hA0 : findA docs A with _ | dA0
  · rw [findA_eq_none] at hA0
    exact absurd hAk hA0
  rcases hB0 : findA docs B with _ | dB0
  · rw [findA_eq_none] at hB0
    exact absurd hBk hB0
  obtain ⟨dA', hfA', haA, _⟩ := docsPassAux_lookup hload A dA0 hA0
  rw [hA] at hfA'
  cases hfA'
  obtain ⟨dB', hfB', _, hrB⟩ := docsPassAux_lookup hload B dB0 hB0
  rw [hB] at hfB'
  cases hfB'
  have hempty : dB0.refedBy = [] := hfresh (B, dB0) (findA_mem hB0)
  constructor
  · intro hBA
    rw [hrB A]
    exact Or.inr ⟨hAk, dA0, hA0, by rwa [← haA]⟩
  · intro hAB
    rcases (hrB A).mp hAB with hx | ⟨_, dx, hdxf, hdxm⟩
    · rw [hempty] at hx
      simp at hx
    · rw [hA0] at hdxf
      cases hdxf
      rwa [haA]

/-- Witness for C1: the reference scenario registry, where Proposal
references Proposal Form Template. -/
theorem documents_reference_graph_symmetric_witness :
    ("Proposal Form Template" ∈ proposalOutA.allRefs ↔
      "Proposal" ∈ proposalOutB.refedBy) ∧
    "Proposal" ∈ proposalOutB.refedBy :=
  ⟨documents_reference_graph_symmetric proposalDocs proposalDocsOut (by decide) (by rfl)
      "Proposal" "Proposal Form Template" proposalOutA proposalOutB (by rfl) (by rfl),
    by decide⟩

/-- C3: a loaded document's `all_references` is the de-duplicated set of the
`type` targets of its metadata fields whose format is Document Reference, and
in the concrete scenario the Proposal document yields exactly the Proposal
Form Template reference, with the back reference registered. -/
theorem document_all_references_characterization :
    (∀ (md : List (String × MetadataHeaderG)) (x : String),
        x ∈ (mkDocumentG md).allRefs ↔
          ∃ k m, (k, m) ∈ md ∧ m.format = "Document Reference" ∧ x ∈ m.typeList)
    ∧ (∀ md : List (String × MetadataHeaderG), ((mkDocumentG md).allRefs).Nodup)
    ∧ (mkDocumentG [("template", hdrTemplate)]).allRefs = ["Proposal Form Template"]
    ∧ ((documentsPostInit proposalDocs).bind
        (fun out => (findA out "Proposal Form Template").map (fun d => d.refedBy)))
      = some ["Proposal"]
    ∧ ((documentsPostInit proposalDocs).bind
        (fun out => (findA out "Proposal").map (fun d => d.allRefs)))
      = some ["Proposal Form Template"] := by
  refine ⟨?_, ?_, by decide, by decide, by decide⟩
  · intro md x
    show x ∈ documentAllRefs MetadataHeaderG.format MetadataHeaderG.typeList md ↔ _
    unfold documentAllRefs
    rw [List.mem_dedup]
    exact collectRefs_mem _ _ md x
  · intro md
    show (documentAllRefs MetadataHeaderG.format MetadataHeaderG.typeList md).Nodup
    unfold documentAllRefs
    exact List.nodup_dedup _

/-- C9: a metadata document-reference target that is not a document name of
the registry makes the post-initialization pass fail: no model is returned. -/
theorem dangling_reference_fails_load
    (docs : List (String × DocumentG)) (n t k : String)
    (md : List (String × MetadataHeaderG)) (m : MetadataHeaderG)
    (hn : findA docs n = some (mkDocumentG md))
    (hk : (k, m) ∈ md) (hfmt : m.format = "Document Reference")
    (ht : t ∈ m.typeList) (hmiss : findA docs t = none) :
    documentsPostInit docs = none := by
  rcases h : documentsPostInit docs with _ | docsOut
  · rfl
  · exfalso
    have htm : t ∈ (mkDocumentG md).allRefs := by
      show t ∈ documentAllRefs MetadataHeaderG.format MetadataHeaderG.typeList md
      unfold documentAllRefs
      rw [List.mem_dedup, collectRefs_mem]
      exact ⟨k, m, hk, hfmt, ht⟩
    have hnk : n ∈ keysA docs := by
      rw [← findA_isSome, hn]
      rfl
    unfold documentsPostInit docsPass at h
    have htk := docsPassAux_resolves h n hnk (mkDocumentG md) hn t htm
    exact findA_eq_none.mp hmiss htk

/-- Witness for C9: the registry whose Proposal document references the
missing Proposal Form Template document fails to load. -/
theorem dangling_reference_fails_load_witness :
    documentsPostInit danglingDocs = none :=
  dangling_reference_fails_load danglingDocs "Proposal" "Proposal Form Template" "template"
    [("template", hdrTemplate)] hdrTemplate (by rfl) (by decide) (by rfl) (by decide) (by rfl)

theorem selfCycle_nested_none :
    ∀ (fuel : Nat) (found : List String), "a" ∉ found →
      nestedCddl selfCycleDefs fuel "a" found = none := by
  intro fuel
  induction fuel with
  | zero =>
    intro found _
    rw [nestedCddl.eq_def]
  | succ fuel ih =>
    intro found hnf
    have hreqs : nestedCddlReqs selfCycleDefs fuel ["a"] "" found = none := by
      rw [nestedCddlReqs.eq_def]
      dsimp only
      rw [if_neg hnf, ih found hnf]
    rw [nestedCddl.eq_def]
    dsimp only
    rw [show findA selfCycleDefs "a" =
      some { definition := "uint", requires := ["a"], description := none, comment := "" }
      from rfl]
    dsimp only
    rw [hreqs]

theorem mutualCycle_nested_none :
    ∀ (fuel : Nat) (found : List String), "a" ∉ found → "b" ∉ found →
      nestedCddl mutualCycleDefs fuel "a" found = none ∧
      nestedCddl mutualCycleDefs fuel "b" found = none := by
  intro fuel
  induction fuel with
  | zero =>
    intro found _ _
    constructor
    · rw [nestedCddl.eq_def]
    · rw [nestedCddl.eq_def]
  | succ fuel ih =>
    intro found ha hb
    constructor
    · have hreqs : nestedCddlReqs mutualCycleDefs fuel ["b"] "" found = none := by
        rw [nestedCddlReqs.eq_def]
        dsimp only
        rw [if_neg hb, (ih found ha hb).2]
      rw [nestedCddl.eq_def]
      dsimp only
      rw [show findA mutualCycleDefs "a" =
        some { definition := "uint", requires := ["b"], description := none, comment := "" }
        from rfl]
      dsimp only
      rw [hreqs]
    · have hreqs : nestedCddlReqs mutualCycleDefs fuel ["a"] "" found = none := by
        rw [nestedCddlReqs.eq_def]
        dsimp only
        rw [if_neg ha, (ih found ha hb).1]
      rw [nestedCddl.eq_def]
      dsimp only
      rw [show findA mutualCycleDefs "b" =
        some { definition := "text", requires := ["a"], description := none, comment := "" }
        from rfl]
      dsimp only
      rw [hreqs]

theorem buildReverse_aux :
    ∀ (l : List (String × String)) (acc : List (String × String)),
      (l.map Prod.snd).Nodup →
      (∀ p ∈ l, findA acc p.2 = none) →
      l.foldl (fun acc p => dictInsert acc p.2 p.1) acc
        = acc ++ l.map (fun p => (p.2, p.1)) := by
  intro l
  induction l with
  | nil =>
    intro acc _ _
    simp
  | cons p rest ih =>
    intro acc hnd hnone
    rw [List.foldl_cons]
    have hfp : findA acc p.2 = none := hnone p (List.mem_cons_self _ _)
    have hins : dictInsert acc p.2 p.1 = acc ++ [(p.2, p.1)] := by
      unfold dictInsert
      rw [hfp]
      rfl
    rw [hins]
    rw [List.map_cons, List.nodup_cons] at hnd
    have hnone2 : ∀ q ∈ rest, findA (acc ++ [(p.2, p.1)]) q.2 = none := by
      intro q hq
      rw [findA_append_of_none (hnone q (List.mem_cons_of_mem _ hq)), findA_cons]
      have hne : p.2 ≠ q.2 := by
        intro he
        exact hnd.1 (he ▸ List.mem_map_of_mem Prod.snd hq)
      rw [if_neg hne]
      rfl
    rw [ih (acc ++ [(p.2, p.1)]) hnd.2 hnone2]
    simp

theorem buildReverse_eq (root : List (String × String))
    (hnd : (root.map Prod.snd).Nodup) :
    buildReverse root = root.map (fun p => (p.2, p.1)) := by
  unfold buildReverse
  have h := buildReverse_aux root [] hnd (fun p _ => rfl)
  simpa using h

/-- C5 (amended): duplicate DocTypeIds are not rejected at load; however when
every DocTypeId is used by exactly one name, the stored mapping and the
derived reverse mapping are mutually inverse: `name(uuid(n)) = n` for every
loaded name and `uuid(name(u)) = u` for every mapped id. -/
theorem base_types_bijective_when_ids_unique
    (root : List (String × String))
    (hkeys : (keysA root).Nodup)
    (hids : (root.map Prod.snd).Nodup) :
    (∀ n u, btUuid (mkBaseTypes root) n = some u → btName (mkBaseTypes root) u = some n)
    ∧ (∀ u n, btName (mkBaseTypes root) u = some n → btUuid (mkBaseTypes root) n = some u) := by
  constructor
  · intro n u h
    show findA (buildReverse root) u = some n
    rw [buildReverse_eq root hids]
    have hmem : (n, u) ∈ root := findA_mem h
    have hmem2 : (u, n) ∈ root.map (fun p => (p.2, p.1)) :=
      List.mem_map_of_mem _ hmem
    refine findA_of_nodup_mem ?_ hmem2
    have hk : keysA (root.map fun p => (p.2, p.1)) = root.map Prod.snd := by
      unfold keysA
      rw [List.map_map]
      rfl
    rwa [hk]
  · intro u n h
    show findA root n = some u
    have h2 : findA (root.map fun p => (p.2, p.1)) u = some n := by
      have hb : btName (mkBaseTypes root) u = findA (buildReverse root) u := rfl
      rw [hb, buildReverse_eq root hids] at h
      exact h
    have hmem : (u, n) ∈ root.map (fun p => (p.2, p.1)) := findA_mem h2
    obtain ⟨q, hq, he⟩ := List.mem_map.mp hmem
    have hqe : q = (n, u) := by
      cases q
      cases he
      rfl
    rw [hqe] at hq
    exact findA_of_nodup_mem hkeys hq

/-- Witness for the amended C5: a mapping with unique ids round-trips. -/
theorem base_types_bijective_witness :
    btName (mkBaseTypes goodBaseTypes) "0ce8ab38-9258-4fbc-a62e-7faa6e58318f" = some "a"
    ∧ (keysA goodBaseTypes).Nodup ∧ (goodBaseTypes.map Prod.snd).Nodup :=
  ⟨(base_types_bijective_when_ids_unique goodBaseTypes (by decide) (by decide)).1 "a"
      "0ce8ab38-9258-4fbc-a62e-7faa6e58318f" (by decide),
    by decide, by decide⟩

/-- Counterexample to C5: a mapping whose DocTypeId is used by two names is
not rejected — `model_post_init` has no failure path — and the loaded object
is not a bijection: the reverse lookup binds the id to the name written last,
so `name(uuid("a"))` is `"b"`. -/
theorem base_types_duplicate_loads_counterexample :
    btUuid (mkBaseTypes dupBaseTypes) "a" = some "0ce8ab38-9258-4fbc-a62e-7faa6e58318f"
    ∧ btName (mkBaseTypes dupBaseTypes) "0ce8ab38-9258-4fbc-a62e-7faa6e58318f" = some "b"
    ∧ ("b" : String) ≠ "a"
    ∧ mkBaseTypes dupBaseTypes =
        { root := dupBaseTypes
          forUuid := [("0ce8ab38-9258-4fbc-a62e-7faa6e58318f", "b")] } := by
  decide

/-- C6 (amended): the load pass performs no exclusivity validation at all:
whenever every document reference resolves, the model loads, whatever the
`exclusive` declarations say, and the global metadata registry (the scope
holding the exclusivity declarations) is passed through unchanged. -/
theorem load_ignores_exclusivity
    (s : SignedDocD)
    (hres : ∀ n d, findA s.docs n = some d → ∀ r ∈ d.allRefs, r ∈ keysA s.docs) :
    ∃ m, loadGenDocs s = some m ∧ m.metadata = s.metadata := by
  obtain ⟨docs2, h2⟩ := docsPassAux_total stampMetaD (fun n hn => hn) hres
  refine ⟨{ s with
      clusters := s.clusters.map (fun p => (p.1, { p.2 with name := some p.1 }))
      docs := docs2 }, ?_, rfl⟩
  unfold loadGenDocs
  rw [show docsPass stampMetaD s.docs = some docs2 from h2]

/-- Witness for the amended C6: the asymmetric specification loads. -/
theorem load_ignores_exclusivity_witness :
    (loadGenDocs asymSpec).isSome := by
  obtain ⟨m, hm, _⟩ := load_ignores_exclusivity asymSpec
    (fun n d h => by rw [show findA asymSpec.docs n = none from rfl] at h; cases h)
  rw [hm]
  rfl

/-- Counterexample to C6: a specification declaring B exclusive of A but not
A exclusive of B loads successfully — nothing detects or rejects the
asymmetry, and the loaded model still holds the asymmetric lists. -/
theorem asymmetric_exclusive_loads_counterexample :
    loadGenDocs asymSpec = some asymSpec
    ∧ findA asymSpec.metadata "A" = some mdAsymA
    ∧ findA asymSpec.metadata "B" = some mdAsymB
    ∧ "B" ∈ mdAsymA.exclusive
    ∧ "A" ∉ mdAsymB.exclusive := by
  decide

/-- C2: contrary to the claim, `_nested_cddl` (and hence `cddl_file`, the
specification's `resolve_full_grammar`) never terminates on a root whose
`requires` graph has a cycle: a name is appended to `found` only after its
recursive expansion returns, so along a cycle no name is ever recorded.  At
every recursion depth (fuel) the self-cycle and the two-definition mutual
cycle still have not produced a result. -/
theorem nested_cddl_cycle_diverges :
    (∀ fuel, nestedCddl selfCycleDefs fuel "a" [] = none)
    ∧ (∀ fuel, cddlFileF selfCycleDefs fuel "a" = none)
    ∧ (∀ fuel, nestedCddl mutualCycleDefs fuel "a" [] = none)
    ∧ (∀ fuel, cddlFileF mutualCycleDefs fuel "a" = none) := by
  refine ⟨fun fuel => selfCycle_nested_none fuel [] (by simp),
    fun fuel => ?_,
    fun fuel => (mutualCycle_nested_none fuel [] (by simp) (by simp)).1,
    fun fuel => ?_⟩
  · unfold cddlFileF
    rw [selfCycle_nested_none fuel [] (by simp)]
  · unfold cddlFileF
    rw [(mutualCycle_nested_none fuel [] (by simp) (by simp)).1]

theorem setName_self (m : MetadataD) (n : String) (dn : Option String)
    (h1 : m.name = some n) (h2 : m.docName = dn) : m.setName n dn = m := by
  unfold MetadataD.setName
  cases m
  simp only at h1 h2
  rw [← h1, ← h2]

theorem stampMetaD_self (dn : String) (md : List (String × MetadataD))
    (h : ∀ p ∈ md, (p.2).name = some p.1 ∧ (p.2).docName = some dn) :
    stampMetaD dn md = md := by
  unfold stampMetaD
  induction md with
  | nil => rfl
  | cons p rest ih =>
    rw [List.map_cons]
    have hp := h p (List.mem_cons_self _ _)
    rw [setName_self p.2 p.1 (some dn) hp.1 hp.2]
    rw [ih (fun q hq => h q (List.mem_cons_of_mem _ hq))]

theorem setDocName_selfD (dn : String) (doc : DocumentD)
    (h1 : doc.docName = some dn)
    (h2 : ∀ p ∈ doc.meta, (p.2).name = some p.1 ∧ (p.2).docName = some dn) :
    setDocName stampMetaD dn doc = doc := by
  unfold setDocName
  rw [stampMetaD_self dn doc.meta h2]
  cases doc
  simp only at h1
  rw [← h1]

/-- C4 (amended): queries do write the `name`/`doc_name` context onto the
stored objects, so they are only no-ops on a model whose context is already
stamped.  On such a model `get_metadata` (global and document-scoped) and
`get_document` return the state unchanged; on a model whose global metadata
was never stamped (as gen_docs loading leaves it) the first call mutates it,
per the counterexample. -/
theorem accessors_noop_on_stamped_model
    (s : SignedDocD)
    (hglob : ∀ p ∈ s.metadata, (p.2).name = some p.1 ∧ (p.2).docName = none)
    (hdocs : ∀ q ∈ s.docs, (q.2).docName = some q.1 ∧
        ∀ p ∈ (q.2).meta, (p.2).name = some p.1 ∧ (p.2).docName = some q.1) :
    (∀ mn md s2, getMetadataD s mn none = some (md, s2) → s2 = s)
    ∧ (∀ mn dn md s2, getMetadataD s mn (some dn) = some (md, s2) → s2 = s)
    ∧ (∀ dn d s2, getDocumentD s dn = some (d, s2) → s2 = s) := by
  refine ⟨?_, ?_, ?_⟩
  · intro mn md s2 h
    unfold getMetadataD at h
    rcases hf : findA s.metadata mn with _ | md0
    · rw [hf] at h
      cases h
    · rw [hf] at h
      simp only at h
      cases h
      have hp := hglob (mn, md0) (findA_mem hf)
      rw [setName_self md0 mn none hp.1 hp.2, updateA_self hf]
  · intro mn dn md s2 h
    unfold getMetadataD at h
    dsimp only at h
    rcases hdn : findA s.docs dn with _ | doc
    · rw [hdn] at h
      cases h
    · rw [hdn] at h
      simp only at h
      rcases hmn : findA doc.meta mn with _ | md0
      · rw [hmn] at h
        cases h
      · rw [hmn] at h
        simp only at h
        cases h
        have hq := hdocs (dn, doc) (findA_mem hdn)
        have hp := hq.2 (mn, md0) (findA_mem hmn)
        rw [setName_self md0 mn (some dn) hp.1 hp.2, updateA_self hmn]
        rw [show ({ doc with meta := doc.meta } : DocumentD) = doc from rfl]
        rw [updateA_self hdn]
  · intro dn d s2 h
    unfold getDocumentD at h
    rcases hdn : findA s.docs dn with _ | doc
    · rw [hdn] at h
      cases h
    · rw [hdn] at h
      simp only at h
      cases h
      have hq := hdocs (dn, doc) (findA_mem hdn)
      rw [setDocName_selfD dn doc hq.1 hq.2, updateA_self hdn]

/-- Witness for the amended C4: on the stamped model the accessor returns
the state unchanged. -/
theorem accessors_noop_on_stamped_model_witness :
    getMetadataD stampedSpec "template" none
      = some (mdAsymB.setName "template" none, stampedSpec) := by
  have h : getMetadataD stampedSpec "template" none =
      some (mdAsymB.setName "template" none,
        { stampedSpec with
          metadata := updateA stampedSpec.metadata "template"
            (mdAsymB.setName "template" none) }) := by decide
  have hs := (accessors_noop_on_stamped_model stampedSpec (by decide) (by decide)).1
    "template" (mdAsymB.setName "template" none)
    { stampedSpec with
      metadata := updateA stampedSpec.metadata "template"
        (mdAsymB.setName "template" none) } h
  rw [h, hs]

/-- Counterexample to C4: on the model exactly as gen_docs loading produces
it, the first `get_metadata` call changes the stored header's `name` field
from `None` to the field name — a query accessor mutates the model. -/
theorem get_metadata_mutates_counterexample :
    loadGenDocs freshSpec = some freshSpec
    ∧ getMetadataD freshSpec "template" none
        = some (mdAsymB.setName "template" none, freshMutated)
    ∧ freshMutated ≠ freshSpec
    ∧ (findA freshSpec.metadata "template").map MetadataD.name = some none
    ∧ (findA freshMutated.metadata "template").map MetadataD.name
        = some (some "template") := by
  decide

theorem forRefG_perm {clusters : List (String × DocClusterG)} {ref : List String}
    {c : DocClusterG} (h : forRefG clusters ref = some c) : List.Perm c.docs ref := by
  unfold forRefG at h
  rcases hf : clusters.find? (fun p => isClusterG p.2 ref) with _ | p
  · rw [hf] at h
    cases h
  · rw [hf] at h
    cases h
    have hp := List.find?_some hf
    unfold isClusterG at hp
    exact of_decide_eq_true hp

theorem forRefG_isSome_iff (clusters : List (String × DocClusterG)) (ref : List String) :
    (∃ p ∈ clusters, List.Perm (p.2).docs ref) ↔ (forRefG clusters ref).isSome := by
  constructor
  · rintro ⟨p, hp, hperm⟩
    unfold forRefG
    rcases hf : clusters.find? (fun q => isClusterG q.2 ref) with _ | q
    · exfalso
      have hnone := List.find?_eq_none.mp hf p hp
      exact hnone (decide_eq_true hperm)
    · rw [hf]
      rfl
  · intro h
    unfold forRefG at h
    rcases hf : clusters.find? (fun q => isClusterG q.2 ref) with _ | q
    · rw [hf] at h
      cases h
    · have hq := List.find?_some hf
      unfold isClusterG at hq
      exact ⟨q, List.mem_of_find?_eq_some hf, of_decide_eq_true hq⟩

/-- C10 (amended): `for_ref` matches a cluster exactly when the cluster's
member multiset equals the given list (`Counter` equality); for duplicate-free
lists this is the same as equality as sets, and a strict subset or superset of
a cluster's members never matches, as the shrunk-cluster scenario shows. -/
theorem for_ref_exact_match_only :
    (∀ clusters ref c, forRefG clusters ref = some c → List.Perm c.docs ref)
    ∧ (∀ clusters ref,
        (∃ p ∈ clusters, List.Perm (p.2).docs ref) ↔ (forRefG clusters ref).isSome)
    ∧ (∀ (c : DocClusterG) (ref : List String), c.docs.Nodup → ref.Nodup →
        (List.Perm c.docs ref ↔ c.docs.toFinset = ref.toFinset))
    ∧ forRefG clustersShrunk ["A", "B", "C"] = none
    ∧ forRefG clustersShrunk ["A", "B"] = some { docs := ["A", "B"], name := "X" } := by
  refine ⟨fun _ _ _ h => forRefG_perm h, forRefG_isSome_iff, ?_, by decide, by decide⟩
  intro c ref h1 h2
  constructor
  · intro hperm
    exact List.toFinset_eq_of_perm _ _ hperm
  · intro hfin
    exact List.perm_of_nodup_nodup_toFinset_eq h1 h2 hfin

/-- Witness for the amended C10: a permuted member list still matches, and
the match is an exact multiset match. -/
theorem for_ref_exact_match_only_witness :
    List.Perm (["A", "B"] : List String) ["B", "A"]
    ∧ (forRefG clustersShrunk ["B", "A"]).isSome := by
  refine ⟨for_ref_exact_match_only.1 clustersShrunk ["B", "A"]
      { docs := ["A", "B"], name := "X" } (by decide), ?_⟩
  exact (for_ref_exact_match_only.2.1 clustersShrunk ["B", "A"]).mp
    ⟨("X", { docs := ["A", "B"], name := "X" }), by decide, by decide⟩

/-- Counterexample to C10: the singleton cluster's member list equals
`["A", "A"]` as a set, yet `for_ref` returns none — the comparison is by
multiset (`Counter`), not by set. -/
theorem for_ref_multiset_counterexample :
    forRefG clustersSingleA ["A", "A"] = none
    ∧ (["A"] : List String).toFinset = (["A", "A"] : List String).toFinset
    ∧ findA clustersSingleA "X" = some { docs := ["A"], name := "X" } := by
  decide

theorem stringFoldlAppend (l : List String) :
    ∀ (x y : String), l.foldl (fun a b => a ++ b) (x ++ y) = x ++ l.foldl (fun a b => a ++ b) y := by
  induction l with
  | nil =>
    intro x y
    rfl
  | cons a rest ih =>
    intro x y
    rw [List.foldl_cons, List.foldl_cons, String.append_assoc]
    exact ih x (y ++ a)

theorem stringJoin_cons (a : String) (l : List String) :
    String.join (a :: l) = a ++ String.join l := by
  show (a :: l).foldl (fun a b => a ++ b) "" = a ++ l.foldl (fun a b => a ++ b) ""
  rw [List.foldl_cons]
  have h : ("" ++ a) = (a ++ "") := by simp
  rw [h]
  exact stringFoldlAppend l a ""

theorem synthFirstLoop_exclusives_nodup
    {headers : List (String × RawHeader)} {formats : List (String × Option String)} :
    ∀ {names : List String} {st st' : SynthState},
      st.exclusives.Nodup → synthFirstLoop headers formats names st = some st' →
      st'.exclusives.Nodup := by
  intro names
  induction names with
  | nil =>
    intro st st' hnd h
    cases h
    exact hnd
  | cons n rest ih =>
    intro st st' hnd h
    unfold synthFirstLoop at h
    rcases hf : findA headers n with _ | data
    · rw [hf] at h
      cases h
    · rw [hf] at h
      simp only at h
      rcases hex : data.exclusive with _ | e
      · rw [hex] at h
        dsimp only at h
        refine ih ?_ h
        exact hnd
      · rw [hex] at h
        dsimp only at h
        refine ih ?_ h
        dsimp only
        by_cases hmem : pySort (e ++ [n]) ∈ st.exclusives
        · rw [if_pos hmem]
          exact hnd
        · rw [if_neg hmem]
          simp [List.nodup_append, hnd, hmem]

theorem synthFirstLoop_exclusives_mem
    {headers : List (String × RawHeader)} {formats : List (String × Option String)} :
    ∀ {names : List String} {st st' : SynthState},
      synthFirstLoop headers formats names st = some st' →
      ∀ g ∈ st'.exclusives, g ∈ st.exclusives ∨
        ∃ hn data e, hn ∈ names ∧ findA headers hn = some data ∧
          data.exclusive = some e ∧ g = pySort (e ++ [hn]) := by
  intro names
  induction names with
  | nil =>
    intro st st' h g hg
    cases h
    exact Or.inl hg
  | cons n rest ih =>
    intro st st' h g hg
    unfold synthFirstLoop at h
    rcases hf : findA headers n with _ | data
    · rw [hf] at h
      cases h
    · rw [hf] at h
      simp only at h
      rcases hex : data.exclusive with _ | e
      · rw [hex] at h
        dsimp only at h
        rcases ih h g hg with hin | ⟨hn, d2, e2, hmem, hfind, hexc, hsort⟩
        · exact Or.inl hin
        · exact Or.inr ⟨hn, d2, e2, List.mem_cons_of_mem _ hmem, hfind, hexc, hsort⟩
      · rw [hex] at h
        dsimp only at h
        rcases ih h g hg with hin | ⟨hn, d2, e2, hmem, hfind, hexc, hsort⟩
        · by_cases hmem2 : pySort (e ++ [n]) ∈ st.exclusives
          · rw [if_pos hmem2] at hin
            exact Or.inl hin
          · rw [if_neg hmem2] at hin
            rcases List.mem_append.mp hin with hin | hin
            · exact Or.inl hin
            · have hgs : g = pySort (e ++ [n]) := by simpa using hin
              exact Or.inr ⟨n, data, e, List.mem_cons_self _ _, hf, hex, hgs⟩
        · exact Or.inr ⟨hn, d2, e2, List.mem_cons_of_mem _ hmem, hfind, hexc, hsort⟩

theorem synthBlockLoop_fields
    {headers : List (String × RawHeader)} {formats : List (String × Option String)} :
    ∀ {g : List String} {fields : List String} {req : List (Option String)}
      {out : List String × List (Option String)},
      synthBlockLoop headers formats g fields req = some out →
      out.1 = fields ++ g.map (blockFieldStr headers formats) := by
  intro g
  induction g with
  | nil =>
    intro fields req out h
    cases h
    simp
  | cons entry rest ih =>
    intro fields req out h
    unfold synthBlockLoop at h
    rcases hf : findA headers entry with _ | data
    · rw [hf] at h
      cases h
    · rw [hf] at h
      simp only at h
      rw [ih h, List.map_cons]
      have hb : blockFieldStr headers formats entry
          = pyFieldName data.coseLabel entry ++ " => "
            ++ pyOptStr (cddlTypeForMetadata headers formats entry) := by
        unfold blockFieldStr
        rw [hf]
      rw [hb]
      simp

theorem synthSecondLoop_blocks
    {headers : List (String × RawHeader)} {formats : List (String × Option String)} :
    ∀ {exs : List (List String)} {cddlDef : String} {req : List (Option String)}
      {out : String × List (Option String)},
      synthSecondLoop headers formats exs cddlDef req = some out →
      out.1 = cddlDef ++ String.join (exs.map (blockRender headers formats)) := by
  intro exs
  induction exs with
  | nil =>
    intro cddlDef req out h
    cases h
    simp [String.join]
  | cons g rest ih =>
    intro cddlDef req out h
    unfold synthSecondLoop at h
    rcases hb : synthBlockLoop headers formats g [] req with _ | fr
    · rw [hb] at h
      cases h
    · rw [hb] at h
      simp only at h
      rw [ih h, List.map_cons, stringJoin_cons]
      have hfields : fr.1 = g.map (blockFieldStr headers formats) := by
        have := synthBlockLoop_fields hb
        simpa using this
      unfold blockRender
      rw [← hfields, String.append_assoc]

/-- C7: the first synthesis loop collects each distinct exclusive group
exactly once (no duplicate groups, and every collected group is the sorted
`exclusive` list of one of the headers together with that header); a sorted
group of duplicate-free members lists each member once; the second loop
appends exactly one alternation block per collected group; and the two-field
mutual-exclusivity scenario produces exactly one optional block with exactly
those two entries, even though both fields are declared required. -/
theorem synthetic_headers_exclusive_groups :
    (∀ (headers : List (String × RawHeader)) (formats : List (String × Option String))
        (names : List String) (st st' : SynthState),
        st.exclusives.Nodup → synthFirstLoop headers formats names st = some st' →
        st'.exclusives.Nodup)
    ∧ (∀ (headers : List (String × RawHeader)) (formats : List (String × Option String))
        (names : List String) (st st' : SynthState),
        synthFirstLoop headers formats names st = some st' →
        ∀ g ∈ st'.exclusives, g ∈ st.exclusives ∨
          ∃ hn data e, hn ∈ names ∧ findA headers hn = some data ∧
            data.exclusive = some e ∧ g = pySort (e ++ [hn]))
    ∧ (∀ (e : List String) (hn : String),
        (e ++ [hn]).Nodup → (pySort (e ++ [hn])).Nodup)
    ∧ (∀ (headers : List (String × RawHeader)) (formats : List (String × Option String))
        (exs : List (List String)) (cddlDef : String) (req : List (Option String))
        (out : String × List (Option String)),
        synthSecondLoop headers formats exs cddlDef req = some out →
        out.1 = cddlDef ++ String.join (exs.map (blockRender headers formats)))
    ∧ syntheticHeaders baseRawDef synHeadersAB [] synFormatsAB
        = some { baseRawDef with
            definition := "(\n  ? (\n      \"A\" => uuid_v7 //\n      \"B\" => uuid_v7\n  ))"
            requires := [some "uuid_v7"] }
    ∧ countSub "(\n  ? (\n      \"A\" => uuid_v7 //\n      \"B\" => uuid_v7\n  ))" "? (" = 1
    ∧ countSub "(\n  ? (\n      \"A\" => uuid_v7 //\n      \"B\" => uuid_v7\n  ))"
        "\"A\" => uuid_v7" = 1
    ∧ countSub "(\n  ? (\n      \"A\" => uuid_v7 //\n      \"B\" => uuid_v7\n  ))"
        "\"B\" => uuid_v7" = 1 := by
  refine ⟨fun _ _ _ _ _ hnd h => synthFirstLoop_exclusives_nodup hnd h,
    fun _ _ _ _ _ h => synthFirstLoop_exclusives_mem h,
    ?_,
    fun _ _ _ _ _ _ h => synthSecondLoop_blocks h,
    by decide, by decide, by decide, by decide⟩
  intro e hn hnd
  unfold pySort
  exact ((List.perm_insertionSort (fun a b => pyStrLeL a.data b.data = true)
    (e ++ [hn])).symm).nodup hnd

/-- Witness for C7: the concrete two-field scenario run through the loops. -/
theorem synthetic_headers_exclusive_groups_witness :
    ({ cddlDef := "", requires := [], exclusives := [["A", "B"]] } : SynthState).exclusives.Nodup
    ∧ (pySort (["B"] ++ ["A"])).Nodup
    ∧ (("" : String)
        ++ String.join ([["A", "B"]].map (blockRender synHeadersAB synFormatsAB)))
      = "? (\n    \"A\" => uuid_v7 //\n    \"B\" => uuid_v7\n)" := by
  refine ⟨?_, ?_, ?_⟩
  · exact synthetic_headers_exclusive_groups.1 synHeadersAB synFormatsAB
      (headersAndOrder synHeadersAB []) { cddlDef := "", requires := [], exclusives := [] }
      { cddlDef := "", requires := [], exclusives := [["A", "B"]] } (by decide) (by decide)
  · exact synthetic_headers_exclusive_groups.2.2.1 ["B"] "A" (by decide)
  · have h : synthSecondLoop synHeadersAB synFormatsAB [["A", "B"]] "" []
        = some ("? (\n    \"A\" => uuid_v7 //\n    \"B\" => uuid_v7\n)", [some "uuid_v7"]) := by
      decide
    have h4 := synthetic_headers_exclusive_groups.2.2.2.1 synHeadersAB synFormatsAB
      [["A", "B"]] "" [] ("? (\n    \"A\" => uuid_v7 //\n    \"B\" => uuid_v7\n)",
        [some "uuid_v7"]) h
    exact h4.symm

theorem foldlAppendMapStr {α : Type} (f : α → String) :
    ∀ (l : List α) (init : String),
      l.foldl (fun acc z => acc ++ f z) init = init ++ String.join (l.map f) := by
  intro l
  induction l with
  | nil =>
    intro init
    show init = init ++ String.join []
    simp [String.join]
  | cons a rest ih =>
    intro init
    rw [List.foldl_cons, ih, List.map_cons, stringJoin_cons, String.append_assoc]

theorem exclusiveDefStr_eq_sepList : ∀ e, exclusiveDefStr e = sepList e := by
  intro e
  match e with
  | [] => rfl
  | [x] => rfl
  | [x, y] => rfl
  | x :: y :: z :: rest =>
    unfold exclusiveDefStr sepList
    dsimp only
    rw [if_neg (by simp : ¬(y :: z :: rest) = ([] : List String))]
    rw [if_pos (by simp : (x :: y :: z :: rest).length > 2)]
    dsimp only [List.drop]
    rw [foldlAppendMapStr (fun m => "\n, `" ++ m ++ "`") ((y :: z :: rest).dropLast) ""]
    rw [List.getLast_cons (by simp : ¬(y :: z :: rest) = ([] : List String))]
    rfl

/-- C8 (amended): the implemented clause joins the exclusive members with a
newline-and-comma before each middle member and a newline-and-the-word-and
before the last (no comma before the and), the word metadata follows the
member list rather than preceding it, and a one-partner clause carries no
and at all; exactly one such clause is appended to the validation text. -/
theorem exclusive_clause_joins_members :
    (∀ e, exclusiveDefStr e = sepList e)
    ∧ (∀ (m : MetadataD) (v : String), m.validation = some v →
        getValidationD m = some (pyStrip
          (v ++ exclusiveClause m.exclusive ++ linkedRefClauses m.name m.linkedRefs)))
    ∧ (∀ e, e ≠ ([] : List String) → exclusiveClause e
        = "\n* MUST NOT be present in any document that contains "
          ++ sepList e ++ " metadata.")
    ∧ (∀ x, sepList [x] = "\n`" ++ x ++ "`")
    ∧ getValidationD mdExcl1
        = some "V\n* MUST NOT be present in any document that contains \n`X` metadata."
    ∧ countSub "V\n* MUST NOT be present in any document that contains \n`X` metadata."
        "and" = 0 := by
  refine ⟨exclusiveDefStr_eq_sepList, ?_, ?_, fun x => rfl, by decide, by decide⟩
  · intro m v hv
    unfold getValidationD
    rw [hv]
  · intro e he
    unfold exclusiveClause
    rw [if_pos (List.length_pos.mpr he), exclusiveDefStr_eq_sepList e]

/-- Witness for the amended C8: the three-member and one-member clauses. -/
theorem exclusive_clause_joins_members_witness :
    exclusiveDefStr ["X", "Y", "Z"] = sepList ["X", "Y", "Z"]
    ∧ getValidationD mdExcl3 = some (pyStrip ("V" ++ exclusiveClause mdExcl3.exclusive
        ++ linkedRefClauses mdExcl3.name mdExcl3.linkedRefs))
    ∧ exclusiveClause ["X"]
        = "\n* MUST NOT be present in any document that contains "
          ++ sepList ["X"] ++ " metadata." :=
  ⟨exclusive_clause_joins_members.1 ["X", "Y", "Z"],
    exclusive_clause_joins_members.2.1 mdExcl3 "V" rfl,
    exclusive_clause_joins_members.2.2.1 ["X"] (by simp)⟩

/-- Counterexample to C8: the clause the code emits for three exclusive
partners has no Oxford-style join and does not contain the claimed phrasing
(the word also is absent and the word metadata follows the list), while the
clause format the specification claims contains that phrasing. -/
theorem exclusive_clause_format_counterexample :
    getValidationD mdExcl3
      = some "V\n* MUST NOT be present in any document that contains \n`X`\n, `Y`\nand `Z` metadata."
    ∧ countSub
        "V\n* MUST NOT be present in any document that contains \n`X`\n, `Y`\nand `Z` metadata."
        "also contains metadata" = 0
    ∧ specClauseC8 ["X", "Y", "Z"]
        = "MUST NOT be present in any document that also contains metadata `X`, `Y`, and `Z`"
    ∧ countSub (specClauseC8 ["X", "Y", "Z"]) "also contains metadata" = 1 := by
  decide

end Catalyst
